import Mathlib

/-!
Shallow embedding of the message-thread and contact-disclosure logic of the
marketplace UI (components `Inbox` and `ResourceTable`).  Database tables are
modelled as lists of rows; each Supabase query/mutation of the source is
translated into a pure function on a `DB` value.  Remote-call failures that the
source catches are modelled by explicit success flags where a claim depends on
them.
-/

/-- Real contact details of a company (`real_contact_info` JSON column). -/
structure ContactInfo where
  company_name : String
  email : String
  phone : String
  address : String
deriving DecidableEq

/-- Row of the `companies` table (the columns the components select). -/
structure Company where
  id : String
  anonymous_id : String
  real_contact_info : Option ContactInfo
deriving DecidableEq

/-- Row of the `resources` table (the columns the components use). -/
structure Resource where
  id : String
  company_id : String
  competence : String
  price : Option Nat
  price_type : String
  period_from : Nat
  period_to : Nat
  is_taken : Bool
  anonymId : String
  comments : String
deriving DecidableEq

/-- Row of the `messages` table.  `thread_id` is null on a thread-opening
message; the thread identifier of any message is `thread_id || id`. -/
structure Message where
  id : String
  from_company_id : String
  to_company_id : String
  resource_id : String
  subject : String
  content : String
  created_at : Nat
  read_at : Option Nat
  thread_id : Option String
deriving DecidableEq

/-- Row of the `thread_contact_sharing` table (a ContactDisclosure). -/
structure SharingRow where
  thread_id : String
  from_company_id : String
  to_company_id : String
deriving DecidableEq

/-- The backend state visible to the two components. -/
structure DB where
  companies : List Company
  resources : List Resource
  messages : List Message
  sharing : List SharingRow
deriving DecidableEq

deriving instance DecidableEq for Except

/-- Resolution of a company foreign key, as done by the embedded
`from_company:from_company_id(...)` joins of the select calls. -/
def findCompany (db : DB) (cid : String) : Option Company :=
  db.companies.find? (fun c => decide (c.id = cid))

/-- Resolution of a resource foreign key. -/
def findResource (db : DB) (rid : String) : Option Resource :=
  db.resources.find? (fun r => decide (r.id = rid))

/-- A `messages` row together with its joined companies and resource, as the
select statements of `loadMessages` / `loadThread` return it.  A dangling
foreign key joins to `none` (SQL null). -/
structure MsgView where
  msg : Message
  from_company : Option Company
  to_company : Option Company
  resource : Option Resource
deriving DecidableEq

/-- Perform the three joins of the select statements. -/
def joinMsg (db : DB) (m : Message) : MsgView :=
  { msg := m
    from_company := findCompany db m.from_company_id
    to_company := findCompany db m.to_company_id
    resource := findResource db m.resource_id }

/-- The validity filter `msg.from_company && msg.to_company && msg.resource`
applied by both `loadMessages` and `loadThread`. -/
def isValid (v : MsgView) : Bool :=
  v.from_company.isSome && v.to_company.isSome && v.resource.isSome

/-- Identifier of the company a joined message is addressed to. -/
def toIdOf (v : MsgView) : Option String :=
  v.to_company.map Company.id

/-- The expression `msg.thread_id || msg.id` used throughout the source. -/
def threadIdOf (m : Message) : String :=
  m.thread_id.getD m.id

/-- Ascending `created_at` comparison (`order('created_at', ascending: true)`). -/
def ascR (a b : Message) : Prop := a.created_at ≤ b.created_at

/-- Descending `created_at` comparison (`order('created_at', ascending: false)`). -/
def descR (a b : Message) : Prop := b.created_at ≤ a.created_at

instance : DecidableRel ascR := fun a b => Nat.decLe a.created_at b.created_at

instance : DecidableRel descR := fun a b => Nat.decLe b.created_at a.created_at

instance : IsTotal Message ascR := ⟨fun a b => Nat.le_total a.created_at b.created_at⟩

instance : IsTrans Message ascR := ⟨fun _ _ _ h1 h2 => Nat.le_trans h1 h2⟩

instance : IsTotal Message descR := ⟨fun a b => Nat.le_total b.created_at a.created_at⟩

instance : IsTrans Message descR := ⟨fun _ _ _ h1 h2 => Nat.le_trans h2 h1⟩

/-- Display status of a resource as computed by `getStatusInfo`:
`agreed` = "Avtale inngått", `awaitingApproval` = "Venter på godkjenning",
`pendingRequests n` = "n nye forespørsler", `expired` = "Utløpt",
`active` = "Aktiv". -/
inductive Status where
  | agreed
  | awaitingApproval
  | pendingRequests (n : Nat)
  | expired
  | active
deriving DecidableEq

/-- Embedding of `ResourceTable.getStatusInfo`.  `info` is
`contactInfo[resource.id]` (present exactly when the viewer resolved the
counterparty's contact details), `pendingCount` is
`pendingRequests[resource.id]?.length ?? 0`, and `now` is the current date. -/
def getStatusInfo (r : Resource) (info : Option ContactInfo) (pendingCount : Nat)
    (now : Nat) : Status :=
  if r.is_taken then
    if info.isSome then Status.agreed else Status.awaitingApproval
  else if 0 < pendingCount then Status.pendingRequests pendingCount
  else if r.period_to < now then Status.expired
  else Status.active

/-- A joined message as held in component state (`selectedMessage`): its
company and resource references have already passed the validity filter, so
they are present. -/
structure SelMsg where
  id : String
  subject : String
  content : String
  thread_id : Option String
  from_company : Company
  to_company : Company
  resource : Resource
deriving DecidableEq

/-- The condition `!s.trim()` of the source: `s` trims to the empty string,
i.e. every character of `s` is whitespace. -/
def isBlank (s : String) : Bool :=
  s.data.all Char.isWhitespace

/-- Reasons `handleReply` refuses to send, one per disjunct of its guard
`if (!selectedMessage || !reply.trim() || !userCompanyId) return;`, in source
order.  The middle disjunct is the spec's `ValidationError`. -/
inductive ReplyError where
  | noThreadSelected
  | validationError
  | noCompany
deriving DecidableEq

/-- Embedding of `Inbox.handleReply`.  On success it inserts one `messages`
row computed from `selectedMessage` and the reply text. -/
def handleReply (selectedMessage : Option SelMsg) (userCompanyId : Option String)
    (reply : String) (db : DB) (now : Nat) (newId : String) : Except ReplyError DB :=
  match selectedMessage with
  | none => Except.error ReplyError.noThreadSelected
  | some sm =>
    if isBlank reply then Except.error ReplyError.validationError
    else
      match userCompanyId with
      | none => Except.error ReplyError.noCompany
      | some uid =>
        let threadId := sm.thread_id.getD sm.id
        let toCompanyId :=
          if sm.from_company.id = uid then sm.to_company.id else sm.from_company.id
        Except.ok { db with messages := db.messages ++
          [{ id := newId
             from_company_id := uid
             to_company_id := toCompanyId
             resource_id := sm.resource.id
             subject := "Re: " ++ sm.subject
             content := reply
             created_at := now
             read_at := none
             thread_id := some threadId }] }

/-- Embedding of `Inbox.handleShareContact`.  The source performs two
sequential inserts (disclosure row, then system message) with no transaction;
`ok1` and `ok2` say whether each remote insert succeeds.  A failed insert
throws, is caught, and leaves every earlier insert committed. -/
def handleShareContact (selectedMessage : Option SelMsg) (userCompanyId : Option String)
    (messageId : String) (db : DB) (ok1 ok2 : Bool) (newMsgId : String) (now : Nat) : DB :=
  match selectedMessage, userCompanyId with
  | some sm, some uid =>
    if ok1 = false then db
    else
      let otherId :=
        if sm.from_company.id = uid then sm.to_company.id else sm.from_company.id
      let db1 := { db with sharing := db.sharing ++
        [{ thread_id := messageId, from_company_id := uid, to_company_id := otherId }] }
      if ok2 = false then db1
      else { db1 with messages := db1.messages ++
        [{ id := newMsgId
           from_company_id := uid
           to_company_id := otherId
           resource_id := sm.resource.id
           subject := "Kontaktinformasjon delt"
           content := "Kontaktinformasjon er nå delt mellom partene."
           created_at := now
           read_at := none
           thread_id := some messageId }] }
  | _, _ => db

/-- Embedding of `Inbox.handleMarkAsTaken`: an unconditional
`update({ is_taken: true }).eq('id', resourceId)` with no guard on the
current value of `is_taken` and no error for an already-taken resource. -/
def handleMarkAsTaken (db : DB) (resourceId : String) : DB :=
  { db with resources :=
      db.resources.map fun r =>
        if r.id = resourceId then { r with is_taken := true } else r }

/-- Failure modes of the spec's `acceptResource`. -/
inductive AcceptError where
  | alreadyTaken
  | notFound
deriving DecidableEq

/-- Modelled from the spec: the server-side RPC `accept_resource` invoked by
`ResourceTable.handleAcceptResource` is not part of the repository source.
Per the spec it fails with `AlreadyTakenError` if `resource.is_taken` is
already true and otherwise atomically sets `is_taken = true` on the
resource. -/
def accept_resource (db : DB) (resourceId acceptingCompanyId : String) :
    Except AcceptError DB :=
  match db.resources.find? (fun r => decide (r.id = resourceId)) with
  | none => Except.error AcceptError.notFound
  | some r =>
    if r.is_taken then Except.error AcceptError.alreadyTaken
    else
      Except.ok
        { db with resources := db.resources.map (fun x => if x.id = resourceId then { x with is_taken := true } else x) }

/-- Embedding of `Inbox.getDisplayName`.  `contactShared` is the set of thread
ids that have a disclosure row (the component's `contactShared` record). -/
def getDisplayName (contactShared : List String) (m : SelMsg) (isFromUser : Bool) :
    String :=
  let company := if isFromUser then m.from_company else m.to_company
  let isShared := contactShared.contains (m.thread_id.getD m.id)
  if isFromUser then "Du"
  else
    match isShared, company.real_contact_info with
    | true, some info => info.company_name
    | _, _ => company.anonymous_id

/-- Output of rendering one message bubble of the selected thread: the name
line, the message body, and the optional contact-information block. -/
structure Rendered where
  name : String
  content : String
  contactBlock : Option ContactInfo
deriving DecidableEq

/-- Embedding of the thread-view message rendering of `Inbox` (the
`selectedThread.map` body): the displayed name comes from `getDisplayName`,
and the contact block is shown only when the selected thread has a disclosure
row, the sender has `real_contact_info`, and the message is not the system
announcement. -/
def renderThreadMessage (contactShared : List String) (selTid : String)
    (userCompanyId : String) (m : SelMsg) : Rendered :=
  let isFromUser := decide (m.from_company.id = userCompanyId)
  let isContactMessage := m.subject = "Kontaktinformasjon delt"
  { name := getDisplayName contactShared m isFromUser
    content := m.content
    contactBlock :=
      if contactShared.contains selTid = true ∧
          m.from_company.real_contact_info.isSome = true ∧ ¬ isContactMessage
      then m.from_company.real_contact_info
      else none }

/-- Embedding of the company cell of `ResourceTable`: the list of strings put
in the cell, `contactInfo[resource.id]` being `info`.  With no resolved
contact info only the resource's `anonymId` is shown. -/
def renderCompanyCell (info : Option ContactInfo) (anonymId : String) : List String :=
  match info with
  | some i => [i.company_name, i.phone, i.email, i.address]
  | none => [anonymId]

/-- Lookup in an association list, mimicking `Map.get` / record indexing of
the source (first binding wins). -/
def assocFind {β : Type} : List (String × β) → String → Option β
  | [], _ => none
  | (k', v') :: rest, k => if k' = k then some v' else assocFind rest k

/-- Update-or-append on an association list, mimicking `Map.set`: an existing
key keeps its position, a new key is appended at the end (JS `Map` preserves
insertion order). -/
def mapSet {β : Type} : List (String × β) → String → β → List (String × β)
  | [], k, v => [(k, v)]
  | (k', v') :: rest, k, v =>
    if k' = k then (k, v) :: rest else (k', v') :: mapSet rest k v

/-- One step of the `threadMap` grouping loop of `loadMessages`: keep, per
thread id, the message with the strictly greatest `created_at` seen so far
(the first one seen wins ties, matching the strict `>` of the source). -/
def groupStep (acc : List (String × MsgView)) (v : MsgView) : List (String × MsgView) :=
  match assocFind acc (threadIdOf v.msg) with
  | none => mapSet acc (threadIdOf v.msg) v
  | some old =>
    if old.msg.created_at < v.msg.created_at then mapSet acc (threadIdOf v.msg) v
    else acc

/-- Rows of the `messages` select of `loadMessages`: all messages involving
the user, newest first. -/
def inboxSelect (db : DB) (user : String) : List Message :=
  List.insertionSort descR
    (db.messages.filter (fun m => decide (m.from_company_id = user ∨ m.to_company_id = user)))

/-- Embedding of `Inbox.loadMessages`: join, drop rows with dangling
references, group by thread keeping the latest message, and return the kept
messages in `Map` insertion order. -/
def loadMessages (db : DB) (user : String) : List MsgView :=
  let validMessages := ((inboxSelect db user).map (joinMsg db)).filter isValid
  (validMessages.foldl groupStep []).map Prod.snd

/-- Rows of the `messages` select of `loadThread`: the message whose id is the
argument together with all messages whose `thread_id` is the argument, oldest
first. -/
def threadSelect (db : DB) (messageId : String) : List Message :=
  List.insertionSort ascR
    (db.messages.filter (fun m => decide (m.id = messageId ∨ m.thread_id = some messageId)))

/-- The `validMessages` list of `loadThread` (dangling references dropped). -/
def threadViews (db : DB) (messageId : String) : List MsgView :=
  ((threadSelect db messageId).map (joinMsg db)).filter isValid

/-- The `unreadMessages` list of `loadThread`: returned messages not yet read
and addressed to the requesting company. -/
def threadUnread (db : DB) (user messageId : String) : List MsgView :=
  (threadViews db messageId).filter
    (fun v => decide (v.msg.read_at = none ∧ toIdOf v = some user))

/-- Embedding of `Inbox.loadThread`: returns the thread's joined messages and
the database after the `read_at` updates (one `update ... eq('id', msg.id)`
per unread message, issued only when there is at least one). -/
def loadThread (db : DB) (user messageId : String) (now : Nat) : List MsgView × DB :=
  let unread := threadUnread db user messageId
  if 0 < unread.length then
    (threadViews db messageId,
      { db with messages :=
          db.messages.map fun m =>
            if (unread.map (fun v => v.msg.id)).contains m.id
            then { m with read_at := some now } else m })
  else (threadViews db messageId, db)

/-- Rows of the `messages` select of `ResourceTable.loadPendingRequests`:
messages addressed to the user that open a thread (`thread_id` null) and are
unread (`read_at` null), newest first. -/
def pendingSelect (db : DB) (user : String) : List Message :=
  List.insertionSort descR
    (db.messages.filter
      (fun m => decide (m.to_company_id = user ∧ m.thread_id = none ∧ m.read_at = none)))

/-- One step of the `reduce` grouping the pending requests by `resource_id`
(a JS object: first key appearance fixes its position, later messages with
the same key are pushed at the end of its list). -/
def pushGroup : List (String × List Message) → String → Message → List (String × List Message)
  | [], rid, m => [(rid, [m])]
  | (k, ms) :: rest, rid, m =>
    if k = rid then (k, ms ++ [m]) :: rest else (k, ms) :: pushGroup rest rid m

/-- Embedding of `ResourceTable.loadPendingRequests` (the `pendingRequests`
state): the pending request messages grouped by resource id. -/
def loadPendingRequests (db : DB) (user : String) : List (String × List Message) :=
  (pendingSelect db user).foldl (fun acc m => pushGroup acc m.resource_id m) []

/-! Concrete sample data used by witnesses and counterexamples. -/

def ciA : ContactInfo := { company_name := "Firma A AS", email := "a@a.no", phone := "111", address := "Gate 1" }

def ciB : ContactInfo := { company_name := "Firma B AS", email := "b@b.no", phone := "222", address := "Gate 2" }

def compA : Company := { id := "cA", anonymous_id := "anonA", real_contact_info := some ciA }

def compB : Company := { id := "cB", anonymous_id := "anonB", real_contact_info := some ciB }

def resX : Resource :=
  { id := "r1", company_id := "cA", competence := "Electrician", price := some 500,
    price_type := "hourly", period_from := 10, period_to := 20, is_taken := false,
    anonymId := "anonA", comments := "" }

def resXTaken : Resource := { resX with is_taken := true }

/-- A request message from company B to company A about `resX`, opening a
thread. -/
def msgIn : Message :=
  { id := "m1", from_company_id := "cB", to_company_id := "cA", resource_id := "r1",
    subject := "Forespørsel", content := "Hei", created_at := 3, read_at := none,
    thread_id := none }

/-- The joined form of `msgIn` as held in `selectedMessage` for viewer A. -/
def smIn : SelMsg :=
  { id := "m1", subject := "Forespørsel", content := "Hei", thread_id := none,
    from_company := compB, to_company := compA, resource := resX }

def db0 : DB := { companies := [compA, compB], resources := [resX], messages := [msgIn], sharing := [] }

def dbTaken : DB := { companies := [compA, compB], resources := [resXTaken], messages := [msgIn], sharing := [] }

/-- C2 -- `getStatusInfo` is evaluated top to bottom: a taken resource yields
`agreed` when the viewer resolved contact info and `awaitingApproval`
otherwise; else a positive unread-request count yields `pendingRequests`;
else a past `period.to` yields `expired`; else `active`; and the result is
always one of these five states. -/
theorem getStatusInfo_order (r : Resource) (info : Option ContactInfo) (pc now : Nat) :
    (r.is_taken = true → info.isSome = true → getStatusInfo r info pc now = Status.agreed)
    ∧ (r.is_taken = true → info.isSome = false →
        getStatusInfo r info pc now = Status.awaitingApproval)
    ∧ (r.is_taken = false → 0 < pc → getStatusInfo r info pc now = Status.pendingRequests pc)
    ∧ (r.is_taken = false → pc = 0 → r.period_to < now →
        getStatusInfo r info pc now = Status.expired)
    ∧ (r.is_taken = false → pc = 0 → ¬ r.period_to < now →
        getStatusInfo r info pc now = Status.active)
    ∧ (getStatusInfo r info pc now = Status.agreed
        ∨ getStatusInfo r info pc now = Status.awaitingApproval
        ∨ getStatusInfo r info pc now = Status.pendingRequests pc
        ∨ getStatusInfo r info pc now = Status.expired
        ∨ getStatusInfo r info pc now = Status.active) := by
  refine ⟨?_, ?_, ?_, ?_, ?_, ?_⟩
  · intro h1 h2; simp [getStatusInfo, h1, h2]
  · intro h1 h2; simp [getStatusInfo, h1, h2]
  · intro h1 h2; simp [getStatusInfo, h1, h2]
  · intro h1 h2 h3; simp [getStatusInfo, h1, h2, h3]
  · intro h1 h2 h3; simp [getStatusInfo, h1, h2, h3]
  · unfold getStatusInfo; split_ifs <;> simp

/-- C2 witness: the theorem applied at a concrete taken resource. -/
theorem getStatusInfo_order_witness :
    resXTaken.is_taken = true ∧ (some ciB).isSome = true
      ∧ getStatusInfo resXTaken (some ciB) 1 0 = Status.agreed :=
  ⟨by decide, by decide, (getStatusInfo_order resXTaken (some ciB) 1 0).1 (by decide) (by decide)⟩

/-- C6 counterexample: a taken resource whose contact info the viewer cannot
resolve yields `awaitingApproval`, not `agreed`, so "`Agreed` is returned if
and only if `is_taken = true`" fails in the only-if-taken-then-agreed
direction. -/
theorem getStatusInfo_agreed_iff_taken_cex :
    resXTaken.is_taken = true ∧ getStatusInfo resXTaken none 0 0 ≠ Status.agreed
      ∧ getStatusInfo resXTaken none 0 0 = Status.awaitingApproval := by
  decide

/-- C6 amended: `getStatusInfo` always returns one of the five states, and the
taken family (`agreed` or `awaitingApproval`) is returned if and only if
`is_taken = true`; `agreed` additionally requires the viewer to have resolved
the counterparty's contact info. -/
theorem getStatusInfo_taken_family (r : Resource) (info : Option ContactInfo) (pc now : Nat) :
    ((getStatusInfo r info pc now = Status.agreed
        ∨ getStatusInfo r info pc now = Status.awaitingApproval) ↔ r.is_taken = true)
    ∧ (getStatusInfo r info pc now = Status.agreed ↔ (r.is_taken = true ∧ info.isSome = true))
    ∧ (getStatusInfo r info pc now = Status.agreed
        ∨ getStatusInfo r info pc now = Status.awaitingApproval
        ∨ getStatusInfo r info pc now = Status.pendingRequests pc
        ∨ getStatusInfo r info pc now = Status.expired
        ∨ getStatusInfo r info pc now = Status.active) := by
  unfold getStatusInfo
  split_ifs <;> simp_all

/-- C5 -- `handleReply` rejects empty or whitespace-only content with the
validation error, for every selected thread, sender, database state, time and
fresh id. -/
theorem handleReply_blank_content (sm : SelMsg) (userCompanyId : Option String)
    (reply : String) (db : DB) (now : Nat) (newId : String)
    (h : isBlank reply = true) :
    handleReply (some sm) userCompanyId reply db now newId
      = Except.error ReplyError.validationError := by
  simp [handleReply, h]

/-- C5 witness: a whitespace-only reply on a concrete thread is rejected. -/
theorem handleReply_blank_content_witness :
    isBlank "  " = true
      ∧ handleReply (some smIn) (some "cA") "  " db0 7 "m2"
          = Except.error ReplyError.validationError :=
  ⟨by decide, handleReply_blank_content smIn (some "cA") "  " db0 7 "m2" (by decide)⟩

/-- C3 counterexample: on a resource that is already taken,
`handleMarkAsTaken` does not fail with an already-taken error -- it cannot
fail at all: it unconditionally re-issues the update and completes, leaving
the state unchanged, while the spec-modelled `accept_resource` rejects the
same state with `alreadyTaken`. -/
theorem handleMarkAsTaken_no_guard_cex :
    handleMarkAsTaken dbTaken "r1" = dbTaken
      ∧ accept_resource dbTaken "r1" "cB" = Except.error AcceptError.alreadyTaken := by
  decide

/-- C3 amended: `accept_resource` fails with `alreadyTaken` when the resource
is already taken; `handleMarkAsTaken` has no such guard and simply maps every
resource to itself with `is_taken` forced to true on the matching id (so it is
monotone and never reverses `is_taken`); a successful `accept_resource`
performs the same monotone update; and no other modelled operation touches
`resources`. -/
theorem markTaken_and_accept (db : DB) (rid cid : String) :
    (∀ r, db.resources.find? (fun x => decide (x.id = rid)) = some r → r.is_taken = true →
      accept_resource db rid cid = Except.error AcceptError.alreadyTaken)
    ∧ (∀ r', r' ∈ (handleMarkAsTaken db rid).resources ↔
        ∃ r ∈ db.resources, r' = { r with is_taken := r.is_taken || decide (r.id = rid) })
    ∧ (∀ db', accept_resource db rid cid = Except.ok db' →
        ∀ r', r' ∈ db'.resources ↔
          ∃ r ∈ db.resources, r' = { r with is_taken := r.is_taken || decide (r.id = rid) })
    ∧ (∀ user mid now, ((loadThread db user mid now).2).resources = db.resources)
    ∧ (∀ sel user mid ok1 ok2 nid now,
        (handleShareContact sel user mid db ok1 ok2 nid now).resources = db.resources)
    ∧ (∀ sel user reply now nid db', handleReply sel user reply db now nid = Except.ok db' →
        db'.resources = db.resources) := by
  refine ⟨?_, ?_, ?_, ?_, ?_, ?_⟩
  · intro r hfind htaken
    simp [accept_resource, hfind, htaken]
  · intro r'
    simp only [handleMarkAsTaken, List.mem_map]
    constructor
    · rintro ⟨r, hr, hEq⟩
      refine ⟨r, hr, ?_⟩
      by_cases h : r.id = rid <;> simp [h] at hEq ⊢ <;> simp [← hEq]
    · rintro ⟨r, hr, hEq⟩
      refine ⟨r, hr, ?_⟩
      by_cases h : r.id = rid <;> simp [h] at hEq ⊢ <;> simp [hEq]
  · intro db' hok r'
    rcases hfind : db.resources.find? (fun x => decide (x.id = rid)) with _ | r0
    · simp [accept_resource, hfind] at hok
    · simp only [accept_resource, hfind] at hok
      by_cases htaken : r0.is_taken = true
      · simp [htaken] at hok
      · rw [if_neg htaken] at hok
        simp only [Except.ok.injEq] at hok
        subst hok
        simp only [List.mem_map]
        constructor
        · rintro ⟨r, hr, hEq⟩
          refine ⟨r, hr, ?_⟩
          by_cases h : r.id = rid <;> simp [h] at hEq ⊢ <;> simp [← hEq]
        · rintro ⟨r, hr, hEq⟩
          refine ⟨r, hr, ?_⟩
          by_cases h : r.id = rid <;> simp [h] at hEq ⊢ <;> simp [hEq]
  · intro user mid now
    simp only [loadThread]
    split <;> rfl
  · intro sel user mid ok1 ok2 nid now
    unfold handleShareContact
    rcases sel with _ | sm <;> rcases user with _ | uid <;> simp only
    split <;> [rfl; split <;> rfl]
  · intro sel user reply now nid db' hok
    unfold handleReply at hok
    rcases sel with _ | sm
    · exact absurd hok (by simp)
    · by_cases hb : isBlank reply
      · simp [hb] at hok
      · rcases user with _ | uid
        · simp [hb] at hok
        · simp only [hb, Bool.false_eq_true, if_false, Except.ok.injEq] at hok
          subst hok
          rfl

/-- C3 amended witness: the guarded reject and the unguarded update on a
concrete already-taken resource. -/
theorem markTaken_and_accept_witness :
    accept_resource dbTaken "r1" "cB" = Except.error AcceptError.alreadyTaken :=
  (markTaken_and_accept dbTaken "r1" "cB").1 resXTaken (by decide) (by decide)

/-- C1 counterexample: when the disclosure insert succeeds and the subsequent
message insert fails (the failure is caught after the first insert committed),
the state holds a ContactDisclosure row for the thread and no announcing
message at all -- the two writes are not atomic. -/
theorem handleShareContact_partial_failure_cex :
    ((handleShareContact (some smIn) (some "cA") "m1" db0 true false "mX" 5).sharing.length
        = db0.sharing.length + 1)
    ∧ ((handleShareContact (some smIn) (some "cA") "m1" db0 true false "mX" 5).sharing.filter
          (fun s => s.thread_id = "m1")).length = 1
    ∧ (handleShareContact (some smIn) (some "cA") "m1" db0 true false "mX" 5).messages
        = db0.messages := by
  decide

/-- C1 amended: on a run where both inserts succeed, `handleShareContact`
appends exactly one disclosure row for the thread and exactly one system
message with the fixed subject and content, addressed to the other
participant; but the two writes are sequential, not atomic: if the message
insert fails after the disclosure insert succeeded, the disclosure row remains
with no announcing message, and if the first insert fails nothing is written.
No client-side guard prevents a second successful call from appending a second
disclosure row. -/
theorem handleShareContact_runs (sm : SelMsg) (uid mid newMsgId : String) (db : DB)
    (now : Nat) (ok2 : Bool) (hne : sm.from_company.id ≠ sm.to_company.id) :
    (∃ row msg,
      (handleShareContact (some sm) (some uid) mid db true true newMsgId now).sharing
          = db.sharing ++ [row]
      ∧ (handleShareContact (some sm) (some uid) mid db true true newMsgId now).messages
          = db.messages ++ [msg]
      ∧ row.thread_id = mid ∧ row.from_company_id = uid
      ∧ msg.subject = "Kontaktinformasjon delt"
      ∧ msg.content = "Kontaktinformasjon er nå delt mellom partene."
      ∧ msg.thread_id = some mid ∧ msg.from_company_id = uid
      ∧ msg.to_company_id = row.to_company_id
      ∧ msg.to_company_id ≠ uid
      ∧ (uid = sm.from_company.id → msg.to_company_id = sm.to_company.id)
      ∧ (uid = sm.to_company.id → msg.to_company_id = sm.from_company.id))
    ∧ (∃ row,
      (handleShareContact (some sm) (some uid) mid db true false newMsgId now).sharing
          = db.sharing ++ [row]
      ∧ row.thread_id = mid
      ∧ (handleShareContact (some sm) (some uid) mid db true false newMsgId now).messages
          = db.messages)
    ∧ handleShareContact (some sm) (some uid) mid db false ok2 newMsgId now = db := by
  refine ⟨?_, ?_, ?_⟩
  · refine ⟨⟨mid, uid, if sm.from_company.id = uid then sm.to_company.id else sm.from_company.id⟩,
      ⟨newMsgId, uid, if sm.from_company.id = uid then sm.to_company.id else sm.from_company.id,
        sm.resource.id, "Kontaktinformasjon delt",
        "Kontaktinformasjon er nå delt mellom partene.", now, none, some mid⟩,
      ?_, ?_, rfl, rfl, rfl, rfl, rfl, rfl, rfl, ?_, ?_, ?_⟩
    · simp [handleShareContact]
    · simp [handleShareContact]
    · by_cases h : sm.from_company.id = uid
      · simp only [h, if_pos rfl]
        intro hEq
        exact hne (h.trans hEq.symm)
      · simp only [if_neg h]
        intro hEq
        exact h hEq
    · intro hu
      simp [hu.symm]
    · intro hu
      by_cases h : sm.from_company.id = uid
      · exact absurd (h.trans hu) hne
      · simp [if_neg h]
  · refine ⟨⟨mid, uid, if sm.from_company.id = uid then sm.to_company.id else sm.from_company.id⟩,
      ?_, rfl, ?_⟩
    · simp [handleShareContact]
    · simp [handleShareContact]
  · simp [handleShareContact]

/-- C1 amended witness: the no-write run on concrete data. -/
theorem handleShareContact_runs_witness :
    handleShareContact (some smIn) (some "cA") "m1" db0 false true "mX" 5 = db0 :=
  (handleShareContact_runs smIn "cA" "m1" "mX" db0 5 true (by decide)).2.2

/-- C4 counterexample: for an incoming message (sent by the counterparty) with
no disclosure, the rendered name is not the counterparty's `anonymous_id`:
`getDisplayName` with `isFromUser = false` reads `message.to_company` -- the
viewer's own company -- so the viewer's own pseudonym is displayed. -/
theorem renderThreadMessage_counterparty_cex :
    smIn.from_company.id ≠ "cA"
    ∧ (renderThreadMessage [] "m1" "cA" smIn).name = "anonA"
    ∧ (renderThreadMessage [] "m1" "cA" smIn).name ≠ smIn.from_company.anonymous_id
    ∧ (renderThreadMessage [] "m1" "cA" smIn).contactBlock = none := by
  decide

/-- C4 amended: when no disclosure exists for the thread, the rendered output
contains no real contact details and is unchanged under any variation of the
two companies' `real_contact_info`: the contact block is absent and the name
is "Du" for the viewer's own messages and otherwise the recipient company's
`anonymous_id` (the counterparty's pseudonym for outgoing messages, the
viewer's own pseudonym for incoming ones); a table cell with no resolved
contact info shows only the resource's anonymous id. -/
theorem renderThreadMessage_no_disclosure (shared : List String) (selTid user : String)
    (m : SelMsg) (ciF ciT : Option ContactInfo)
    (hsel : shared.contains selTid = false)
    (hmsg : shared.contains (m.thread_id.getD m.id) = false) :
    renderThreadMessage shared selTid user
        { m with from_company := { m.from_company with real_contact_info := ciF },
                 to_company := { m.to_company with real_contact_info := ciT } }
      = { name := if m.from_company.id = user then "Du" else m.to_company.anonymous_id,
          content := m.content,
          contactBlock := none }
    ∧ renderCompanyCell none m.from_company.anonymous_id = [m.from_company.anonymous_id] := by
  constructor
  · unfold renderThreadMessage getDisplayName
    simp only [hsel, hmsg]
    by_cases h : m.from_company.id = user <;> simp [h]
  · rfl

/-- C4 amended witness: the rendering at a concrete undisclosed thread, with
the sender's real contact info varied. -/
theorem renderThreadMessage_no_disclosure_witness :
    renderThreadMessage [] "m1" "cA"
        { smIn with from_company := { smIn.from_company with real_contact_info := some ciA },
                    to_company := { smIn.to_company with real_contact_info := none } }
      = { name := if smIn.from_company.id = "cA" then "Du" else smIn.to_company.anonymous_id,
          content := smIn.content,
          contactBlock := none }
    ∧ renderCompanyCell none smIn.from_company.anonymous_id = [smIn.from_company.anonymous_id] :=
  renderThreadMessage_no_disclosure [] "m1" "cA" smIn (some ciA) none (by decide) (by decide)

/-- C8 -- a successful `handleReply` appends exactly one message, addressed to
the other participant of the selected thread message, carrying the thread's
resource and thread id; if every message of the thread referenced the same
resource before, that invariant still holds afterwards. -/
theorem handleReply_appends_to_other (sm : SelMsg) (uid reply newId : String)
    (db db' : DB) (now : Nat)
    (hok : handleReply (some sm) (some uid) reply db now newId = Except.ok db')
    (hne : sm.from_company.id ≠ sm.to_company.id)
    (hres : ∀ m ∈ db.messages,
      (m.id = sm.thread_id.getD sm.id ∨ m.thread_id = some (sm.thread_id.getD sm.id)) →
        m.resource_id = sm.resource.id) :
    ∃ msg, db'.messages = db.messages ++ [msg]
      ∧ msg.thread_id = some (sm.thread_id.getD sm.id)
      ∧ msg.resource_id = sm.resource.id
      ∧ msg.from_company_id = uid
      ∧ msg.to_company_id ≠ uid
      ∧ (uid = sm.from_company.id → msg.to_company_id = sm.to_company.id)
      ∧ (uid = sm.to_company.id → msg.to_company_id = sm.from_company.id)
      ∧ (∀ m ∈ db'.messages,
          (m.id = sm.thread_id.getD sm.id ∨ m.thread_id = some (sm.thread_id.getD sm.id)) →
            m.resource_id = sm.resource.id) := by
  unfold handleReply at hok
  by_cases hb : isBlank reply
  · simp [hb] at hok
  · simp only [hb, Bool.false_eq_true, if_false, Except.ok.injEq] at hok
    subst hok
    refine ⟨⟨newId, uid, if sm.from_company.id = uid then sm.to_company.id else sm.from_company.id,
      sm.resource.id, "Re: " ++ sm.subject, reply, now, none, some (sm.thread_id.getD sm.id)⟩,
      rfl, rfl, rfl, rfl, ?_, ?_, ?_, ?_⟩
    · by_cases h : sm.from_company.id = uid
      · simp only [if_pos h]
        intro hEq
        exact hne (h.trans hEq.symm)
      · simp only [if_neg h]
        intro hEq
        exact h hEq
    · intro hu
      simp [hu.symm]
    · intro hu
      by_cases h : sm.from_company.id = uid
      · exact absurd (h.trans hu) hne
      · simp [if_neg h]
    · intro m hm hq
      rcases List.mem_append.mp hm with hm | hm
      · exact hres m hm hq
      · rcases List.mem_singleton.mp hm with rfl
        rfl

/-- The database after viewer A replies "Svar" on the concrete thread. -/
def dbReply : DB :=
  { db0 with messages := db0.messages ++
      [{ id := "m2", from_company_id := "cA", to_company_id := "cB", resource_id := "r1",
         subject := "Re: Forespørsel", content := "Svar", created_at := 7, read_at := none,
         thread_id := some "m1" }] }

/-- C8 witness: the reply theorem applied to a concrete thread. -/
theorem handleReply_appends_to_other_witness :
    ∃ msg, dbReply.messages = db0.messages ++ [msg]
      ∧ msg.thread_id = some (smIn.thread_id.getD smIn.id)
      ∧ msg.resource_id = smIn.resource.id
      ∧ msg.from_company_id = "cA"
      ∧ msg.to_company_id ≠ "cA"
      ∧ ("cA" = smIn.from_company.id → msg.to_company_id = smIn.to_company.id)
      ∧ ("cA" = smIn.to_company.id → msg.to_company_id = smIn.from_company.id)
      ∧ (∀ m ∈ dbReply.messages,
          (m.id = smIn.thread_id.getD smIn.id ∨ m.thread_id = some (smIn.thread_id.getD smIn.id)) →
            m.resource_id = smIn.resource.id) :=
  handleReply_appends_to_other smIn "cA" "Svar" "m2" db0 dbReply 7 (by decide) (by decide)
    (by decide)

/-- Lookup after a `pushGroup`: the pushed key's list grows by the message at
its end, every other key is untouched. -/
theorem assocFind_pushGroup (acc : List (String × List Message)) (rid k : String)
    (m : Message) :
    assocFind (pushGroup acc rid m) k =
      if k = rid then some ((assocFind acc rid).getD [] ++ [m]) else assocFind acc k := by
  induction acc with
  | nil =>
    by_cases h : k = rid
    · subst h; simp [pushGroup, assocFind]
    · have h' : ¬ rid = k := fun hh => h hh.symm
      simp [pushGroup, assocFind, h, h']
  | cons p rest ih =>
    obtain ⟨k', ms⟩ := p
    by_cases h1 : k' = rid
    · subst h1
      by_cases h2 : k = k'
      · subst h2; simp [pushGroup, assocFind]
      · have h2' : ¬ k' = k := fun hh => h2 hh.symm
        simp [pushGroup, assocFind, h2, h2']
    · by_cases h3 : k' = k
      · have h4 : ¬ k = rid := fun hh => h1 (h3.trans hh)
        simp [pushGroup, assocFind, h1, h3, h4]
      · simp [pushGroup, assocFind, h1, h3, ih]

/-- Lookup after folding `pushGroup` over a message list: the group of a key
is the accumulator's group followed by the messages with that resource id, in
list order. -/
theorem assocFind_foldl_pushGroup (l : List Message) (acc : List (String × List Message))
    (k : String) :
    (assocFind (l.foldl (fun a m => pushGroup a m.resource_id m) acc) k).getD [] =
      (assocFind acc k).getD [] ++ l.filter (fun m => decide (m.resource_id = k)) := by
  induction l generalizing acc with
  | nil => simp
  | cons m l ih =>
    simp only [List.foldl_cons, List.filter_cons]
    rw [ih, assocFind_pushGroup]
    by_cases h : k = m.resource_id
    · have hm : decide (m.resource_id = k) = true := by simp [h]
      rw [if_pos h, hm]
      simp [h, List.append_assoc]
    · have hm : decide (m.resource_id = k) = false := by
        simp; exact fun hh => h hh.symm
      rw [if_neg h, hm]
      simp

/-- C10 -- the pending-request group of a resource holds exactly the messages
addressed to the viewer that are thread-opening (`thread_id` null), unread
(`read_at` null) and about that resource; consequently a resource whose
inbound messages are all replies or already read has zero pending requests
feeding `getStatusInfo`. -/
theorem loadPendingRequests_count (db : DB) (user rid : String) :
    ((assocFind (loadPendingRequests db user) rid).getD []).length
      = (db.messages.filter (fun m =>
          decide (m.to_company_id = user ∧ m.thread_id = none ∧ m.read_at = none
            ∧ m.resource_id = rid))).length
    ∧ ((∀ m ∈ db.messages, m.to_company_id = user → m.resource_id = rid →
          m.thread_id ≠ none ∨ m.read_at ≠ none) →
        ((assocFind (loadPendingRequests db user) rid).getD []).length = 0) := by
  have key : ((assocFind (loadPendingRequests db user) rid).getD []).length
      = (db.messages.filter (fun m =>
          decide (m.to_company_id = user ∧ m.thread_id = none ∧ m.read_at = none
            ∧ m.resource_id = rid))).length := by
    unfold loadPendingRequests
    rw [assocFind_foldl_pushGroup]
    simp only [assocFind, Option.getD_none, List.nil_append, pendingSelect]
    have hperm := (List.perm_insertionSort descR
      (db.messages.filter (fun m =>
        decide (m.to_company_id = user ∧ m.thread_id = none ∧ m.read_at = none)))).filter
      (fun m => decide (m.resource_id = rid))
    rw [hperm.length_eq, List.filter_filter]
    congr 1
    apply List.filter_congr
    intro m _
    by_cases h1 : m.to_company_id = user <;> by_cases h2 : m.thread_id = none <;>
      by_cases h3 : m.read_at = none <;> by_cases h4 : m.resource_id = rid <;>
      simp [h1, h2, h3, h4]
  refine ⟨key, fun h => ?_⟩
  rw [key, List.length_eq_zero, List.filter_eq_nil_iff]
  intro m hm hc
  simp only [decide_eq_true_eq] at hc
  obtain ⟨h1, h2, h3, h4⟩ := hc
  rcases h m hm h1 h4 with h5 | h5
  · exact h5 h2
  · exact h5 h3

/-- A database where the only inbound message for the resource is a reply
inside an existing thread. -/
def dbReplies : DB :=
  { companies := [compA, compB], resources := [resX],
    messages := [{ id := "m3", from_company_id := "cB", to_company_id := "cA",
                   resource_id := "r1", subject := "Re: x", content := "ok",
                   created_at := 4, read_at := none, thread_id := some "m0" }],
    sharing := [] }

/-- C10 witness: a resource whose only inbound message is a reply counts zero
pending requests. -/
theorem loadPendingRequests_count_witness :
    ((assocFind (loadPendingRequests dbReplies "cA") "r1").getD []).length = 0 :=
  (loadPendingRequests_count dbReplies "cA" "r1").2 (by decide)

/-- Membership in the thread view: exactly the joins of the stored messages
matched by the id-or-thread-id filter that survive the validity filter. -/
theorem mem_threadViews (db : DB) (mid : String) (v : MsgView) :
    v ∈ threadViews db mid ↔
      (v.msg ∈ db.messages ∧ (v.msg.id = mid ∨ v.msg.thread_id = some mid)
        ∧ isValid v = true ∧ v = joinMsg db v.msg) := by
  unfold threadViews
  constructor
  · intro hv
    obtain ⟨hmap, hvalid⟩ := List.mem_filter.mp hv
    obtain ⟨m, hm, rfl⟩ := List.mem_map.mp hmap
    have hm2 := (List.perm_insertionSort ascR _).mem_iff.mp hm
    obtain ⟨hmem, hq⟩ := List.mem_filter.mp hm2
    exact ⟨hmem, of_decide_eq_true hq, hvalid, rfl⟩
  · rintro ⟨hmem, hq, hvalid, hjoin⟩
    refine List.mem_filter.mpr ⟨List.mem_map.mpr ⟨v.msg, ?_, hjoin.symm⟩, hvalid⟩
    exact (List.perm_insertionSort ascR _).mem_iff.mpr
      (List.mem_filter.mpr ⟨hmem, decide_eq_true hq⟩)

/-- The thread view is ordered ascending by `created_at`. -/
theorem threadViews_sorted (db : DB) (mid : String) :
    List.Pairwise (fun a b : MsgView => a.msg.created_at ≤ b.msg.created_at)
      (threadViews db mid) := by
  unfold threadViews
  refine List.Pairwise.sublist (List.filter_sublist _) ?_
  exact (List.sorted_insertionSort ascR _).map (joinMsg db) (fun a b h => h)

/-- The stamping condition of `loadThread` for a stored message: matched by
the query, valid after joining, unread, and addressed to the requesting
company. -/
def qualifies (db : DB) (user mid : String) (m : Message) : Prop :=
  (m.id = mid ∨ m.thread_id = some mid) ∧ isValid (joinMsg db m) = true
    ∧ m.read_at = none ∧ toIdOf (joinMsg db m) = some user

instance (db : DB) (user mid : String) (m : Message) : Decidable (qualifies db user mid m) := by
  unfold qualifies; infer_instance

/-- Membership in the unread list, phrased through `qualifies`. -/
theorem mem_threadUnread_iff (db : DB) (user mid : String) (v : MsgView) :
    v ∈ threadUnread db user mid ↔
      (v.msg ∈ db.messages ∧ qualifies db user mid v.msg ∧ v = joinMsg db v.msg) := by
  unfold threadUnread
  rw [List.mem_filter]
  constructor
  · rintro ⟨hv, hcond⟩
    obtain ⟨hmem, hq, hvalid, hjoin⟩ := (mem_threadViews db mid v).mp hv
    obtain ⟨hread, hto⟩ := of_decide_eq_true hcond
    refine ⟨hmem, ⟨hq, ?_, hread, ?_⟩, hjoin⟩
    · rw [← hjoin]; exact hvalid
    · rw [← hjoin]; exact hto
  · rintro ⟨hmem, ⟨hq, hvalid, hread, hto⟩, hjoin⟩
    refine ⟨(mem_threadViews db mid v).mpr ⟨hmem, hq, ?_, hjoin⟩, ?_⟩
    · rw [hjoin]; exact hvalid
    · refine decide_eq_true ⟨hread, ?_⟩
      rw [hjoin]; exact hto

/-- Both branches of `loadThread` return the thread view. -/
theorem loadThread_fst (db : DB) (user mid : String) (now : Nat) :
    (loadThread db user mid now).1 = threadViews db mid := by
  simp only [loadThread]
  split <;> rfl

/-- The id list of the unread messages contains an id exactly when some unread
message bears it. -/
theorem contains_unread_ids (l : List MsgView) (x : String) :
    ((l.map (fun v => v.msg.id)).contains x = true) ↔ ∃ v ∈ l, v.msg.id = x := by
  simp

/-- A store missing company B: `msgIn`'s sender reference dangles. -/
def dbDangling : DB :=
  { companies := [compA], resources := [resX], messages := [msgIn], sharing := [] }

/-- C7 counterexample: a message matching the query whose sender company is
missing from the store is silently dropped: `loadThread` does not return all
messages whose id or thread id equals the argument. -/
theorem loadThread_dangling_cex :
    (loadThread dbDangling "cA" "m1" 5).1 = []
    ∧ msgIn.id = "m1" ∧ msgIn ∈ dbDangling.messages := by
  refine ⟨?_, rfl, List.mem_singleton.mpr rfl⟩
  decide

/-- C7 amended -- `loadThread` returns exactly the messages with resolvable
references whose own id or `thread_id` equals the argument, ascending by
`created_at`; it stamps `read_at` with the current time on exactly the
returned messages addressed to the requesting company that were unread
(already-read rows and rows not addressed to the requester are untouched);
and it is idempotent on read state: a second call leaves the database
unchanged. -/
theorem loadThread_spec (db : DB) (user mid : String) (now : Nat) :
    (∀ v, v ∈ (loadThread db user mid now).1 ↔
      (v.msg ∈ db.messages ∧ (v.msg.id = mid ∨ v.msg.thread_id = some mid)
        ∧ isValid v = true ∧ v = joinMsg db v.msg))
    ∧ List.Pairwise (fun a b : MsgView => a.msg.created_at ≤ b.msg.created_at)
        (loadThread db user mid now).1
    ∧ ((db.messages.map Message.id).Nodup →
        (loadThread db user mid now).2.messages = db.messages.map
          (fun m => if qualifies db user mid m then { m with read_at := some now } else m))
    ∧ (∀ now2, (loadThread ((loadThread db user mid now).2) user mid now2).2
        = (loadThread db user mid now).2) := by
  refine ⟨?_, ?_, ?_, ?_⟩
  · intro v
    rw [loadThread_fst]
    exact mem_threadViews db mid v
  · rw [loadThread_fst]
    exact threadViews_sorted db mid
  · intro hnodup
    by_cases h : 0 < (threadUnread db user mid).length
    · simp only [loadThread, if_pos h]
      apply List.map_congr_left
      intro m hm
      have hcq : ((threadUnread db user mid).map (fun v => v.msg.id)).contains m.id = true
          ↔ qualifies db user mid m := by
        rw [contains_unread_ids]
        constructor
        · rintro ⟨v, hv, hid⟩
          obtain ⟨hmem, hq, hjoin⟩ := (mem_threadUnread_iff db user mid v).mp hv
          have : v.msg = m := List.inj_on_of_nodup_map hnodup hmem hm hid
          rwa [this] at hq
        · intro hq
          exact ⟨joinMsg db m, (mem_threadUnread_iff db user mid (joinMsg db m)).mpr
            ⟨hm, hq, rfl⟩, rfl⟩
      by_cases hq : qualifies db user mid m
      · rw [if_pos (hcq.mpr hq), if_pos hq]
      · rw [if_neg (fun hc => hq (hcq.mp hc)), if_neg hq]
    · simp only [loadThread, if_neg h]
      have hnone : ∀ m ∈ db.messages, ¬ qualifies db user mid m := by
        intro m hm hq
        have : joinMsg db m ∈ threadUnread db user mid :=
          (mem_threadUnread_iff db user mid (joinMsg db m)).mpr ⟨hm, hq, rfl⟩
        exact h (List.length_pos_of_mem this)
      have : db.messages.map
          (fun m => if qualifies db user mid m then { m with read_at := some now } else m)
          = db.messages.map (fun m => m) := by
        apply List.map_congr_left
        intro m hm
        rw [if_neg (hnone m hm)]
      rw [this, List.map_id']
  · intro now2
    by_cases h : 0 < (threadUnread db user mid).length
    · simp only [loadThread, if_pos h]
      have hempty : threadUnread
          { db with messages := db.messages.map (fun m =>
              if ((threadUnread db user mid).map (fun v => v.msg.id)).contains m.id
              then { m with read_at := some now } else m) } user mid = [] := by
        apply List.eq_nil_iff_forall_not_mem.mpr
        intro v hv
        obtain ⟨hmem, hq, hjoin⟩ := (mem_threadUnread_iff _ user mid v).mp hv
        simp only [List.mem_map] at hmem
        obtain ⟨m0, hm0, hstamp⟩ := hmem
        by_cases hc : ((threadUnread db user mid).map (fun v => v.msg.id)).contains m0.id = true
        · rw [if_pos hc] at hstamp
          have : v.msg.read_at = some now := by rw [← hstamp]
          exact absurd (hq.2.2.1.symm.trans this) (by simp)
        · rw [if_neg hc] at hstamp
          have hqm0 : qualifies db user mid m0 := by
            rw [hstamp]
            exact hq
          have : joinMsg db m0 ∈ threadUnread db user mid :=
            (mem_threadUnread_iff db user mid (joinMsg db m0)).mpr ⟨hm0, hqm0, rfl⟩
          exact hc ((contains_unread_ids _ _).mpr ⟨joinMsg db m0, this, rfl⟩)
      rw [hempty]
      simp
    · simp only [loadThread, if_neg h]

/-- C7 witness: the stamping equation on a concrete thread with one unread
message addressed to the viewer. -/
theorem loadThread_spec_witness :
    (loadThread db0 "cA" "m1" 5).2.messages = db0.messages.map
      (fun m => if qualifies db0 "cA" "m1" m then { m with read_at := some 5 } else m) :=
  (loadThread_spec db0 "cA" "m1" 5).2.2.1 (by decide)

/-- Lookup after a `mapSet`: the set key now maps to the new value, all other
keys are untouched. -/
theorem assocFind_mapSet {β : Type} (acc : List (String × β)) (k0 k : String) (v : β) :
    assocFind (mapSet acc k0 v) k = if k = k0 then some v else assocFind acc k := by
  induction acc with
  | nil =>
    by_cases h : k = k0
    · subst h; simp [mapSet, assocFind]
    · have h' : ¬ k0 = k := fun hh => h hh.symm
      simp [mapSet, assocFind, h, h']
  | cons p rest ih =>
    obtain ⟨k', v'⟩ := p
    by_cases h1 : k' = k0
    · subst h1
      by_cases h2 : k = k'
      · subst h2; simp [mapSet, assocFind]
      · have h2' : ¬ k' = k := fun hh => h2 hh.symm
        simp [mapSet, assocFind, h2, h2']
    · by_cases h3 : k' = k
      · have h4 : ¬ k = k0 := fun hh => h1 (h3.trans hh)
        simp [mapSet, assocFind, h1, h3, h4]
      · simp [mapSet, assocFind, h1, h3, ih]

/-- Setting an absent key appends it at the end. -/
theorem mapSet_of_none {β : Type} (acc : List (String × β)) (k : String) (v : β)
    (h : assocFind acc k = none) : mapSet acc k v = acc ++ [(k, v)] := by
  induction acc with
  | nil => rfl
  | cons p rest ih =>
    obtain ⟨k', v'⟩ := p
    by_cases h1 : k' = k
    · simp [assocFind, h1] at h
    · simp only [assocFind, if_neg h1] at h
      simp [mapSet, h1, ih h]

/-- A value of a `mapSet` result is the new value or one of the old ones. -/
theorem mem_mapSet {β : Type} (acc : List (String × β)) (k : String) (v : β)
    (p : String × β) (hp : p ∈ mapSet acc k v) : p = (k, v) ∨ p ∈ acc := by
  induction acc with
  | nil => simpa [mapSet] using hp
  | cons q rest ih =>
    obtain ⟨k', v'⟩ := q
    by_cases h1 : k' = k
    · simp only [mapSet, if_pos h1] at hp
      rcases List.mem_cons.mp hp with hp | hp
      · exact Or.inl hp
      · exact Or.inr (List.mem_cons_of_mem _ hp)
    · simp only [mapSet, if_neg h1] at hp
      rcases List.mem_cons.mp hp with hp | hp
      · exact Or.inr (hp ▸ List.mem_cons_self _ _)
      · rcases ih hp with hq | hq
        · exact Or.inl hq
        · exact Or.inr (List.mem_cons_of_mem _ hq)

/-- Setting a present key keeps the key list unchanged. -/
theorem keys_mapSet_some {β : Type} (acc : List (String × β)) (k : String) (v o : β)
    (h : assocFind acc k = some o) :
    (mapSet acc k v).map Prod.fst = acc.map Prod.fst := by
  induction acc with
  | nil => simp [assocFind] at h
  | cons p rest ih =>
    obtain ⟨k', v'⟩ := p
    by_cases h1 : k' = k
    · simp [mapSet, h1]
    · simp only [assocFind, if_neg h1] at h
      simp [mapSet, h1, ih h]

/-- A key is absent from the lookup exactly when it is not a stored key. -/
theorem assocFind_eq_none_iff {β : Type} (acc : List (String × β)) (k : String) :
    assocFind acc k = none ↔ k ∉ acc.map Prod.fst := by
  induction acc with
  | nil => simp [assocFind]
  | cons p rest ih =>
    obtain ⟨k', v'⟩ := p
    by_cases h1 : k' = k
    · subst h1
      simp [assocFind]
    · simp only [assocFind, if_neg h1, List.map_cons, List.mem_cons, not_or]
      rw [ih]
      constructor
      · intro h
        exact ⟨fun hh => h1 hh.symm, h⟩
      · intro h
        exact h.2

/-- A found value is among the stored values. -/
theorem assocFind_mem_values {β : Type} (acc : List (String × β)) (k : String) (v : β)
    (h : assocFind acc k = some v) : v ∈ acc.map Prod.snd := by
  induction acc with
  | nil => simp [assocFind] at h
  | cons p rest ih =>
    obtain ⟨k', v'⟩ := p
    by_cases h1 : k' = k
    · simp only [assocFind, if_pos h1, Option.some.injEq] at h
      simp [h]
    · simp only [assocFind, if_neg h1] at h
      simp [ih h]

/-- One comparison step of the `threadMap` loop: keep the stored message
unless the new one has strictly greater `created_at`. -/
def stepBest (cur : Option MsgView) (v : MsgView) : Option MsgView :=
  match cur with
  | none => some v
  | some o => if o.msg.created_at < v.msg.created_at then some v else some o

/-- The running maximum of the `threadMap` loop over a list. -/
def pickBest (cur : Option MsgView) : List MsgView → Option MsgView
  | [] => cur
  | v :: rest => pickBest (stepBest cur v) rest

/-- What `stepBest` keeps is at least as recent as both inputs and is one of
them. -/
theorem stepBest_spec (cur : Option MsgView) (v : MsgView) :
    (stepBest cur v).isSome = true
    ∧ (∀ r, stepBest cur v = some r →
        ((cur = some r ∨ r = v) ∧ v.msg.created_at ≤ r.msg.created_at
          ∧ ∀ c, cur = some c → c.msg.created_at ≤ r.msg.created_at)) := by
  rcases cur with _ | o
  · refine ⟨rfl, ?_⟩
    intro r h
    simp only [stepBest, Option.some.injEq] at h
    subst h
    exact ⟨Or.inr rfl, Nat.le_refl _, by simp⟩
  · by_cases hlt : o.msg.created_at < v.msg.created_at
    · refine ⟨by simp [stepBest, hlt], ?_⟩
      intro r h
      simp only [stepBest, if_pos hlt, Option.some.injEq] at h
      subst h
      refine ⟨Or.inr rfl, Nat.le_refl _, ?_⟩
      intro c hc
      cases hc
      exact Nat.le_of_lt hlt
    · refine ⟨by simp [stepBest, hlt], ?_⟩
      intro r h
      simp only [stepBest, if_neg hlt, Option.some.injEq] at h
      subst h
      refine ⟨Or.inl rfl, Nat.le_of_not_lt hlt, ?_⟩
      intro c hc
      cases hc
      exact Nat.le_refl _

/-- What `pickBest` returns: the current candidate or a list element, at least
as recent as every list element and as the starting candidate. -/
theorem pickBest_spec (l : List MsgView) : ∀ (cur : Option MsgView) (r : MsgView),
    pickBest cur l = some r →
      ((cur = some r ∨ r ∈ l)
        ∧ (∀ u ∈ l, u.msg.created_at ≤ r.msg.created_at)
        ∧ (∀ c, cur = some c → c.msg.created_at ≤ r.msg.created_at)) := by
  induction l with
  | nil =>
    intro cur r h
    have h' : cur = some r := h
    refine ⟨Or.inl h', by simp, ?_⟩
    intro c hc
    rw [h'] at hc
    cases hc
    exact Nat.le_refl _
  | cons v l ih =>
    intro cur r h
    have h' : pickBest (stepBest cur v) l = some r := h
    obtain ⟨hmem, hle, hcur'⟩ := ih (stepBest cur v) r h'
    have hsb := (stepBest_spec cur v).2
    have hsome := (stepBest_spec cur v).1
    obtain ⟨s, hs⟩ := Option.isSome_iff_exists.mp hsome
    have hsr : s.msg.created_at ≤ r.msg.created_at := hcur' s hs
    obtain ⟨hs1, hs2, hs3⟩ := hsb s hs
    refine ⟨?_, ?_, ?_⟩
    · rcases hmem with hmem | hmem
      · rw [hs] at hmem
        cases hmem
        rcases hs1 with hs1 | hs1
        · exact Or.inl hs1
        · exact Or.inr (hs1 ▸ List.mem_cons_self _ _)
      · exact Or.inr (List.mem_cons_of_mem _ hmem)
    · intro u hu
      rcases List.mem_cons.mp hu with rfl | hu
      · exact Nat.le_trans hs2 hsr
      · exact hle u hu
    · intro c hc
      exact Nat.le_trans (hs3 c hc) hsr

/-- With a candidate or a non-empty list, `pickBest` yields something. -/
theorem pickBest_isSome (l : List MsgView) : ∀ cur : Option MsgView,
    (cur.isSome = true ∨ l ≠ []) → (pickBest cur l).isSome = true := by
  induction l with
  | nil =>
    intro cur h
    rcases h with h | h
    · exact h
    · exact absurd rfl h
  | cons v l ih =>
    intro cur _
    exact ih (stepBest cur v) (Or.inl (stepBest_spec cur v).1)

/-- Lookup after one `groupStep`: the touched key is the step's key, whose
value is the strict-maximum update; every other key is untouched. -/
theorem assocFind_groupStep (acc : List (String × MsgView)) (v : MsgView) (k : String) :
    assocFind (groupStep acc v) k =
      if k = threadIdOf v.msg then stepBest (assocFind acc k) v
      else assocFind acc k := by
  unfold groupStep
  by_cases hk : k = threadIdOf v.msg
  · subst hk
    rw [if_pos rfl]
    rcases hfind : assocFind acc (threadIdOf v.msg) with _ | o
    · simp [assocFind_mapSet, stepBest]
    · by_cases hlt : o.msg.created_at < v.msg.created_at
      · simp [hlt, assocFind_mapSet, stepBest]
      · simp [hlt, hfind, stepBest]
  · rw [if_neg hk]
    rcases hfind : assocFind acc (threadIdOf v.msg) with _ | o
    · simp [assocFind_mapSet, hk]
    · by_cases hlt : o.msg.created_at < v.msg.created_at
      · simp [hlt, assocFind_mapSet, hk]
      · simp [hlt]

/-- Lookup after the whole grouping fold: the strict maximum over the list
elements of the key's thread, starting from the accumulator's candidate. -/
theorem assocFind_foldl_groupStep (l : List MsgView) :
    ∀ (acc : List (String × MsgView)) (k : String),
    assocFind (l.foldl groupStep acc) k =
      pickBest (assocFind acc k) (l.filter (fun v => decide (threadIdOf v.msg = k))) := by
  induction l with
  | nil => intro acc k; rfl
  | cons v l ih =>
    intro acc k
    simp only [List.foldl_cons, List.filter_cons]
    rw [ih, assocFind_groupStep]
    by_cases hk : k = threadIdOf v.msg
    · have hd : decide (threadIdOf v.msg = k) = true := decide_eq_true hk.symm
      rw [if_pos hk, hd, if_pos rfl]
      rfl
    · have hd : decide (threadIdOf v.msg = k) = false := by
        simp only [decide_eq_false_iff_not]
        exact fun hh => hk hh.symm
      rw [if_neg hk, hd]
      simp

/-- The `validMessages` list of `loadMessages`. -/
def inboxValid (db : DB) (user : String) : List MsgView :=
  ((inboxSelect db user).map (joinMsg db)).filter isValid

/-- The grouping of `loadMessages` runs over `inboxValid`. -/
theorem loadMessages_eq (db : DB) (user : String) :
    loadMessages db user = ((inboxValid db user).foldl groupStep []).map Prod.snd := rfl

/-- Membership in the valid inbox list: the joins of the stored messages
involving the user that survive the validity filter. -/
theorem mem_inboxValid (db : DB) (user : String) (v : MsgView) :
    v ∈ inboxValid db user ↔
      (v.msg ∈ db.messages ∧ (v.msg.from_company_id = user ∨ v.msg.to_company_id = user)
        ∧ isValid v = true ∧ v = joinMsg db v.msg) := by
  unfold inboxValid inboxSelect
  constructor
  · intro hv
    obtain ⟨hmap, hvalid⟩ := List.mem_filter.mp hv
    obtain ⟨m, hm, rfl⟩ := List.mem_map.mp hmap
    have hm2 := (List.perm_insertionSort descR _).mem_iff.mp hm
    obtain ⟨hmem, hq⟩ := List.mem_filter.mp hm2
    exact ⟨hmem, of_decide_eq_true hq, hvalid, rfl⟩
  · rintro ⟨hmem, hq, hvalid, hjoin⟩
    refine List.mem_filter.mpr ⟨List.mem_map.mpr ⟨v.msg, ?_, hjoin.symm⟩, hvalid⟩
    exact (List.perm_insertionSort descR _).mem_iff.mpr
      (List.mem_filter.mpr ⟨hmem, decide_eq_true hq⟩)

/-- The valid inbox list is ordered descending by `created_at`. -/
theorem inboxValid_sorted (db : DB) (user : String) :
    List.Pairwise (fun a b : MsgView => b.msg.created_at ≤ a.msg.created_at)
      (inboxValid db user) := by
  unfold inboxValid inboxSelect
  refine List.Pairwise.sublist (List.filter_sublist _) ?_
  exact (List.sorted_insertionSort descR _).map (joinMsg db) (fun a b h => h)

/-- A value of a `groupStep` result is the stepped message or an old value. -/
theorem mem_values_groupStep (acc : List (String × MsgView)) (v w : MsgView)
    (hw : w ∈ (groupStep acc v).map Prod.snd) : w = v ∨ w ∈ acc.map Prod.snd := by
  unfold groupStep at hw
  rcases hfind : assocFind acc (threadIdOf v.msg) with _ | o
  · rw [hfind] at hw
    have hw' : w ∈ (mapSet acc (threadIdOf v.msg) v).map Prod.snd := hw
    obtain ⟨p, hp, hps⟩ := List.mem_map.mp hw'
    rcases mem_mapSet _ _ _ _ hp with rfl | hmem
    · exact Or.inl hps.symm
    · exact Or.inr (List.mem_map.mpr ⟨p, hmem, hps⟩)
  · rw [hfind] at hw
    by_cases hlt : o.msg.created_at < v.msg.created_at
    · have hw' : w ∈ (mapSet acc (threadIdOf v.msg) v).map Prod.snd := by
        have hred : w ∈ (if o.msg.created_at < v.msg.created_at
            then mapSet acc (threadIdOf v.msg) v else acc).map Prod.snd := hw
        rwa [if_pos hlt] at hred
      obtain ⟨p, hp, hps⟩ := List.mem_map.mp hw'
      rcases mem_mapSet _ _ _ _ hp with rfl | hmem
      · exact Or.inl hps.symm
      · exact Or.inr (List.mem_map.mpr ⟨p, hmem, hps⟩)
    · have hw' : w ∈ acc.map Prod.snd := by
        have hred : w ∈ (if o.msg.created_at < v.msg.created_at
            then mapSet acc (threadIdOf v.msg) v else acc).map Prod.snd := hw
        rwa [if_neg hlt] at hred
      exact Or.inr hw'

/-- A value of the grouping fold comes from the accumulator or the list. -/
theorem mem_values_foldl_groupStep (l : List MsgView) :
    ∀ (acc : List (String × MsgView)) (w : MsgView),
    w ∈ (l.foldl groupStep acc).map Prod.snd → w ∈ acc.map Prod.snd ∨ w ∈ l := by
  induction l with
  | nil => intro acc w hw; exact Or.inl hw
  | cons v l ih =>
    intro acc w hw
    rw [List.foldl_cons] at hw
    rcases ih (groupStep acc v) w hw with hw | hw
    · rcases mem_values_groupStep acc v w hw with rfl | hw
      · exact Or.inr (List.mem_cons_self _ _)
      · exact Or.inl hw
    · exact Or.inr (List.mem_cons_of_mem _ hw)

/-- With a descending input whose elements are all at most the accumulator's
values, the grouping fold's values stay descending. -/
theorem sorted_values_foldl_groupStep (l : List MsgView) :
    ∀ acc : List (String × MsgView),
    List.Pairwise (fun a b : MsgView => b.msg.created_at ≤ a.msg.created_at) l →
    List.Pairwise (fun a b : MsgView => b.msg.created_at ≤ a.msg.created_at)
      (acc.map Prod.snd) →
    (∀ w ∈ acc.map Prod.snd, ∀ u ∈ l, u.msg.created_at ≤ w.msg.created_at) →
    List.Pairwise (fun a b : MsgView => b.msg.created_at ≤ a.msg.created_at)
      ((l.foldl groupStep acc).map Prod.snd) := by
  induction l with
  | nil => intro acc _ hacc _; exact hacc
  | cons v l ih =>
    intro acc hsort hacc hbound
    obtain ⟨hv, hl⟩ := List.pairwise_cons.mp hsort
    rw [List.foldl_cons]
    rcases hfind : assocFind acc (threadIdOf v.msg) with _ | o
    · have hgs : groupStep acc v = acc ++ [(threadIdOf v.msg, v)] := by
        unfold groupStep
        rw [hfind]
        exact mapSet_of_none acc (threadIdOf v.msg) v hfind
      rw [hgs]
      apply ih
      · exact hl
      · rw [List.map_append]
        refine List.pairwise_append.mpr ⟨hacc, List.pairwise_singleton _ _, ?_⟩
        intro a ha b hb
        simp only [List.map_cons, List.map_nil, List.mem_singleton] at hb
        rw [hb]
        exact hbound a ha v (List.mem_cons_self _ _)
      · intro w hw u hu
        rw [List.map_append] at hw
        rcases List.mem_append.mp hw with hw | hw
        · exact hbound w hw u (List.mem_cons_of_mem _ hu)
        · simp only [List.map_cons, List.map_nil, List.mem_singleton] at hw
          rw [hw]
          exact hv u hu
    · by_cases hlt : o.msg.created_at < v.msg.created_at
      · have ho : o ∈ acc.map Prod.snd := assocFind_mem_values acc _ o hfind
        exact absurd hlt
          (Nat.not_lt.mpr (hbound o ho v (List.mem_cons_self _ _)))
      · have hgs : groupStep acc v = acc := by
          unfold groupStep
          rw [hfind]
          show (if o.msg.created_at < v.msg.created_at
            then mapSet acc (threadIdOf v.msg) v else acc) = acc
          exact if_neg hlt
        rw [hgs]
        apply ih acc hl hacc
        intro w hw u hu
        exact hbound w hw u (List.mem_cons_of_mem _ hu)

/-- The grouping fold keeps its keys distinct, each key being the thread id of
its value. -/
theorem keys_kv_foldl_groupStep (l : List MsgView) :
    ∀ acc : List (String × MsgView),
    ((acc.map Prod.fst).Nodup ∧ ∀ p ∈ acc, threadIdOf p.2.msg = p.1) →
    (((l.foldl groupStep acc).map Prod.fst).Nodup
      ∧ ∀ p ∈ l.foldl groupStep acc, threadIdOf p.2.msg = p.1) := by
  induction l with
  | nil => intro acc h; exact h
  | cons v l ih =>
    intro acc h
    obtain ⟨hnodup, hkv⟩ := h
    rw [List.foldl_cons]
    apply ih
    rcases hfind : assocFind acc (threadIdOf v.msg) with _ | o
    · have hgs : groupStep acc v = acc ++ [(threadIdOf v.msg, v)] := by
        unfold groupStep
        rw [hfind]
        exact mapSet_of_none acc (threadIdOf v.msg) v hfind
      rw [hgs]
      constructor
      · rw [List.map_append]
        refine List.nodup_append.mpr ⟨hnodup, List.nodup_singleton _, ?_⟩
        intro a ha hb
        simp only [List.map_cons, List.map_nil, List.mem_singleton] at hb
        subst hb
        exact (assocFind_eq_none_iff acc _).mp hfind ha
      · intro p hp
        rcases List.mem_append.mp hp with hp | hp
        · exact hkv p hp
        · rw [List.mem_singleton] at hp
          subst hp
          rfl
    · by_cases hlt : o.msg.created_at < v.msg.created_at
      · have hgs : groupStep acc v = mapSet acc (threadIdOf v.msg) v := by
          unfold groupStep
          rw [hfind]
          show (if o.msg.created_at < v.msg.created_at
            then mapSet acc (threadIdOf v.msg) v else acc) = mapSet acc (threadIdOf v.msg) v
          exact if_pos hlt
        rw [hgs]
        constructor
        · rw [keys_mapSet_some acc _ v o hfind]
          exact hnodup
        · intro p hp
          rcases mem_mapSet _ _ _ _ hp with rfl | hp
          · rfl
          · exact hkv p hp
      · have hgs : groupStep acc v = acc := by
          unfold groupStep
          rw [hfind]
          show (if o.msg.created_at < v.msg.created_at
            then mapSet acc (threadIdOf v.msg) v else acc) = acc
          exact if_neg hlt
        rw [hgs]
        exact ⟨hnodup, hkv⟩

/-- C9 -- `loadMessages` lists only messages whose three references resolve
and that involve the user (dangling rows are silently dropped, not errors);
the output is sorted descending by `created_at`; no two listed messages share
a thread; and every valid stored message involving the user has a listed
representative of its thread at least as recent as itself -- so each thread is
represented by its most recent valid message. -/
theorem loadMessages_spec (db : DB) (user : String) :
    (∀ v ∈ loadMessages db user, isValid v = true ∧ v.msg ∈ db.messages
      ∧ (v.msg.from_company_id = user ∨ v.msg.to_company_id = user))
    ∧ List.Pairwise (fun a b : MsgView => b.msg.created_at ≤ a.msg.created_at)
        (loadMessages db user)
    ∧ List.Pairwise (fun a b : MsgView => threadIdOf a.msg ≠ threadIdOf b.msg)
        (loadMessages db user)
    ∧ (∀ m ∈ db.messages, (m.from_company_id = user ∨ m.to_company_id = user) →
        isValid (joinMsg db m) = true →
        ∃ v ∈ loadMessages db user, threadIdOf v.msg = threadIdOf m
          ∧ m.created_at ≤ v.msg.created_at) := by
  refine ⟨?_, ?_, ?_, ?_⟩
  · intro v hv
    rw [loadMessages_eq] at hv
    rcases mem_values_foldl_groupStep _ [] v hv with h | h
    · simp at h
    · obtain ⟨hmem, hinv, hvalid, _⟩ := (mem_inboxValid db user v).mp h
      exact ⟨hvalid, hmem, hinv⟩
  · rw [loadMessages_eq]
    apply sorted_values_foldl_groupStep
    · exact inboxValid_sorted db user
    · simp
    · simp
  · rw [loadMessages_eq]
    obtain ⟨hkeys, hkv⟩ :=
      keys_kv_foldl_groupStep (inboxValid db user) [] ⟨List.nodup_nil, by simp⟩
    have hkeys' : List.Pairwise (fun a b : String => a ≠ b)
        (((inboxValid db user).foldl groupStep []).map Prod.fst) := hkeys
    have hpair := List.pairwise_map.mp hkeys'
    rw [List.pairwise_map]
    refine List.Pairwise.imp_of_mem ?_ hpair
    intro p q hp hq hne
    rw [hkv p hp, hkv q hq]
    exact hne
  · intro m hm hinv hvalid
    have hjm : joinMsg db m ∈ inboxValid db user :=
      (mem_inboxValid db user (joinMsg db m)).mpr ⟨hm, hinv, hvalid, rfl⟩
    have hfil : joinMsg db m ∈ (inboxValid db user).filter
        (fun v => decide (threadIdOf v.msg = threadIdOf m)) :=
      List.mem_filter.mpr ⟨hjm, decide_eq_true rfl⟩
    have hnonempty : (inboxValid db user).filter
        (fun v => decide (threadIdOf v.msg = threadIdOf m)) ≠ [] :=
      List.ne_nil_of_mem hfil
    have hfind : assocFind ((inboxValid db user).foldl groupStep []) (threadIdOf m)
        = pickBest none ((inboxValid db user).filter
            (fun v => decide (threadIdOf v.msg = threadIdOf m))) := by
      rw [assocFind_foldl_groupStep]
      rfl
    have hsome : (assocFind ((inboxValid db user).foldl groupStep [])
        (threadIdOf m)).isSome = true := by
      rw [hfind]
      exact pickBest_isSome _ none (Or.inr hnonempty)
    obtain ⟨r, hr⟩ := Option.isSome_iff_exists.mp hsome
    have hpb : pickBest none ((inboxValid db user).filter
        (fun v => decide (threadIdOf v.msg = threadIdOf m))) = some r := by
      rw [← hfind]
      exact hr
    obtain ⟨hmem, hle, _⟩ := pickBest_spec _ none r hpb
    rcases hmem with hmem | hmem
    · exact absurd hmem (by simp)
    · obtain ⟨hrval, hrthread⟩ := List.mem_filter.mp hmem
      refine ⟨r, ?_, of_decide_eq_true hrthread, hle (joinMsg db m) hfil⟩
      rw [loadMessages_eq]
      exact assocFind_mem_values _ _ _ hr

/-- A store with one thread of two messages, the reply being the newer. -/
def db9 : DB :=
  { companies := [compA, compB], resources := [resX],
    messages := [msgIn,
      { id := "m2", from_company_id := "cA", to_company_id := "cB", resource_id := "r1",
        subject := "Re: Forespørsel", content := "Svar", created_at := 7, read_at := none,
        thread_id := some "m1" }],
    sharing := [] }

/-- C9 witness: the concrete thread has a listed representative at least as
recent as its opening message. -/
theorem loadMessages_spec_witness :
    ∃ v ∈ loadMessages db9 "cA", threadIdOf v.msg = threadIdOf msgIn
      ∧ msgIn.created_at ≤ v.msg.created_at :=
  (loadMessages_spec db9 "cA").2.2.2 msgIn (by decide) (by decide) (by decide)
